import Mathlib

/-
Verification development for the langgraph demo scripts: the turn-based
conversational agent loop with tool calling, memory and human-in-the-loop
interruption (src/langgraph/3-memory.py, src/langgraph/4-hitl.py,
src/langgraph/tools.py).  The in-repo functions (the chatbot system-prompt
guard, human_assistance, tavily_search, the Responses-API message filter and
the response conversion) are translated directly from the source; the loop
orchestration that the scripts delegate to the framework (node dispatch,
ToolNode batch execution, interrupt/resume, checkpointing) is modelled from
the spec's explicit state machine (spec sections 4.3 and 4.4).
-/

/-- Key-value payloads: the small JSON-like dictionaries the scripts pass
around (interrupt payloads, resume data). -/
abbrev KV := List (String × String)

/-- Structured tool-call request emitted by the model.  Mirrors the
tool-call entries built in src/langgraph/tools.py (call id, function name,
serialized arguments). -/
structure ToolCall where
  id : String
  name : String
  arguments : String
deriving DecidableEq

/-- One entry of a conversation's ordered history (spec section 3, the
tagged Turn variant replacing the loosely-typed message dictionaries). -/
inductive Turn where
  | user (text : String)
  | assistant (text : String) (tool_calls : List ToolCall)
  | toolResult (tool_call_id : String) (result : String)
  | system (text : String)
deriving DecidableEq

/-- Whether a turn is a system turn. -/
def isSystem : Turn → Bool
  | .system _ => true
  | _ => false

/-- Whether a turn is a tool-result turn. -/
def isToolResultTurn : Turn → Bool
  | .toolResult _ _ => true
  | _ => false

/-- The tool_call_id referenced by a tool-result turn (and a default for
other turns). -/
def turnCallId : Turn → String
  | .toolResult i _ => i
  | _ => ""

/-- Outcome of invoking a tool body once: either a result, or a request for
human input carrying the interrupt payload (as repr by the `interrupt` call
inside a tool body in src/langgraph/4-hitl.py). -/
inductive ToolBehavior where
  | ret (result : String)
  | needHuman (payload : KV)
deriving DecidableEq

/-- Result carried by a completed behavior (default for the interrupting
case, which never carries a result). -/
def retOf : ToolBehavior → String
  | .ret v => v
  | .needHuman _ => ""

/-- Body of human_assistance (src/langgraph/4-hitl.py lines 28-33): the tool
calls `interrupt` with the payload `query` keyed under "query", which raises
a suspension signal on first execution. -/
def human_assistance (query : String) : ToolBehavior :=
  .needHuman [("query", query)]

/-- Completion of human_assistance on resume (src/langgraph/4-hitl.py line
32): the suspended `interrupt` call returns the resume payload
`human_response` and the tool returns `human_response` at key "data"; a
missing "data" key raises a KeyError, so the invocation fails with no
result. -/
def human_assistance_resume (human_response : KV) : Option String :=
  human_response.lookup "data"

/-- Resume completion for the 4-hitl.py tool set: only human_assistance has
a suspended continuation; tavily_search never suspends, so it has nothing to
complete on resume. -/
def hitlComplete (c : ToolCall) (d : KV) : Option String :=
  if c.name = "human_assistance" then human_assistance_resume d else none

/-- Body of tavily_search (src/langgraph/3-memory.py lines 27-38,
src/langgraph/4-hitl.py lines 35-49, src/langgraph/tools.py lines 45-49):
when max_results is None it is set to 2, then the external Tavily client is
called with the query unchanged.  The external client is the `search`
argument; the function reads no conversation state. -/
def tavily_search (search : String → Int → String) (query : String)
    (max_results : Option Int) : String :=
  match max_results with
  | none => search query 2
  | some m => search query m

/-- Transport-level failure of the model call (spec section 4.2). -/
structure GatewayError where
  status : Nat
  message : String
deriving DecidableEq

/-- Response of the Model Gateway: an assistant-shaped result (text plus
zero or more tool calls) or a gateway error (spec section 4.2). -/
inductive GatewayResult where
  | ok (text : String) (calls : List ToolCall)
  | err (e : GatewayError)
deriving DecidableEq

/-- Whether a list of turns starts with a system turn: the condition
`messages and messages[0].type == "system"` guarding the system prompt in
chatbot (src/langgraph/3-memory.py line 61, src/langgraph/4-hitl.py
line 73). -/
def startsWithSystem : List Turn → Bool
  | .system _ :: _ => true
  | _ => false

/-- System-prompt insertion of chatbot (src/langgraph/3-memory.py lines
58-62, src/langgraph/4-hitl.py lines 69-74): prepend the system turn unless
the sequence already starts with one. -/
def ensureSystem (sys : String) (messages : List Turn) : List Turn :=
  if startsWithSystem messages then messages else Turn.system sys :: messages

/-- SYSTEM_PROMPT of src/langgraph/3-memory.py lines 52-55. -/
def SYSTEM_PROMPT : String :=
  "\nYou are a helpful assistant that can use tools to get information.\nBefore you call a tool, explain why you are calling it\n"

/-- Modelled from the spec: PendingInterrupt (spec section 3) extended with
the data the Interrupt/Resume Controller preserves across suspension (spec
sections 4.3 step 3 and 4.4): the interrupt payload, the ToolCall whose body
suspended, the results of calls already completed in the batch (buffered,
appended on resume), the remaining buffered ToolCalls, and the index into
turns at suspension time. -/
structure PendingInterrupt where
  payload : KV
  call : ToolCall
  doneResults : List Turn
  remaining : List ToolCall
  position : Nat
deriving DecidableEq

/-- Modelled from the spec: the control states of the agent loop (spec
section 4.3), replacing the framework's implicit node/edge dispatch. -/
inductive LoopPhase where
  | awaitingUserInput
  | modelTurn
  | toolTurn (batch : List ToolCall)
  | suspended (pending : PendingInterrupt)
  | done
deriving DecidableEq

/-- ConversationState of one thread together with the loop's control state
(spec sections 3 and 4.3). -/
structure AgentState where
  turns : List Turn
  phase : LoopPhase
deriving DecidableEq

/-- Whether the thread has a pending interrupt (the `state.next` check of
the driver loop in src/langgraph/4-hitl.py lines 103-105). -/
def hasPendingInterrupt (st : AgentState) : Bool :=
  match st.phase with
  | .suspended _ => true
  | _ => false

/-- Modelled from the spec: transition 1 of the agent loop (spec section 4.3)
combined with the chatbot guard from the source: an external user message in
AWAITING_USER_INPUT appends a UserTurn, prepends the SystemTurn if none
exists yet, and moves to MODEL_TURN.  In any other phase the message is not
accepted and the state is unchanged. -/
def submitUserMessage (sys : String) (st : AgentState) (text : String) :
    AgentState :=
  match st.phase with
  | .awaitingUserInput =>
      { turns := ensureSystem sys st.turns ++ [Turn.user text],
        phase := .modelTurn }
  | _ => st

/-- Outcome of one MODEL_TURN step: success, or a surfaced gateway error
together with the (uncorrupted) state the thread is left in. -/
inductive StepOutcome where
  | ok (st : AgentState)
  | gatewayFailed (e : GatewayError) (st : AgentState)
deriving DecidableEq

/-- State a model step leaves the thread in, whether or not it failed. -/
def stateOf : StepOutcome → AgentState
  | .ok st => st
  | .gatewayFailed _ st => st

/-- Translation of the chatbot node (src/langgraph/3-memory.py lines 58-64,
src/langgraph/4-hitl.py lines 69-76) plus the conditional edge
tools_condition (src/langgraph/3-memory.py line 77, src/langgraph/4-hitl.py
line 89) and, modelled from the spec, transition 2 of section 4.3 and the
GatewayError policy of section 7: the gateway is invoked with the
system-guarded turn sequence; a reply is appended as one AssistantTurn whose
text is always stored (empty string when absent); a nonempty tool-call batch
routes to TOOL_TURN, an empty one straight to AWAITING_USER_INPUT; a gateway
error appends nothing, surfaces the error and leaves the thread awaiting the
next user input. -/
def stepModel (sys : String) (gw : List Turn → GatewayResult)
    (st : AgentState) : StepOutcome :=
  match st.phase with
  | .modelTurn =>
      match gw (ensureSystem sys st.turns) with
      | .err e => .gatewayFailed e { turns := st.turns, phase := .awaitingUserInput }
      | .ok text calls =>
          .ok { turns := st.turns ++ [Turn.assistant text calls],
                phase := if calls.isEmpty then .awaitingUserInput
                         else .toolTurn calls }
  | _ => .ok st

/-- Outcome of executing one tool-call batch: every call completed (the
ordered ToolResultTurns), or the batch suspended at some call (results
completed so far, the suspending call, its interrupt payload, and the
remaining buffered calls). -/
inductive BatchOutcome where
  | completed (results : List Turn)
  | suspendedAt (doneResults : List Turn) (call : ToolCall) (payload : KV)
      (remaining : List ToolCall)
deriving DecidableEq

/-- Results completed so far in a batch outcome. -/
def resultsOf : BatchOutcome → List Turn
  | .completed rs => rs
  | .suspendedAt ds _ _ _ => ds

/-- Modelled from the spec: TOOL_TURN batch execution (spec section 4.3 step
3), standing in for the framework's ToolNode (src/langgraph/3-memory.py line
73, src/langgraph/4-hitl.py line 85): each ToolCall is invoked in the order
emitted and yields one ToolResultTurn; a tool body that requests human input
suspends the batch immediately, buffering the remaining calls. -/
def execBatch (invoke : ToolCall → ToolBehavior) : List ToolCall → BatchOutcome
  | [] => .completed []
  | c :: cs =>
      match invoke c with
      | .needHuman p => .suspendedAt [] c p cs
      | .ret r =>
          match execBatch invoke cs with
          | .completed rs => .completed (Turn.toolResult c.id r :: rs)
          | .suspendedAt ds c₂ p rest =>
              .suspendedAt (Turn.toolResult c.id r :: ds) c₂ p rest

/-- Modelled from the spec: the TOOL_TURN transition of the agent loop (spec
section 4.3 step 3 and the edge tools → chatbot in the source graphs): on a
completed batch the ToolResultTurns are appended in order and control
returns to MODEL_TURN; on suspension the conversation log is left untouched
and the thread moves to SUSPENDED with the PendingInterrupt recording the
payload, the triggering call, the buffered results and the buffered
remaining calls. -/
def stepTools (invoke : ToolCall → ToolBehavior) (st : AgentState) :
    AgentState :=
  match st.phase with
  | .toolTurn batch =>
      match execBatch invoke batch with
      | .completed rs => { turns := st.turns ++ rs, phase := .modelTurn }
      | .suspendedAt ds c p rest =>
          { turns := st.turns,
            phase := .suspended ⟨p, c, ds, rest, st.turns.length⟩ }
  | _ => st

/-- Failures of the resume entry point (spec sections 4.4 and 7). -/
inductive ResumeError where
  | noPendingInterrupt
  | toolExecutionFailed (name : String)
deriving DecidableEq

/-- Outcome of a resume call: success, or a failure together with the state
the thread is left in. -/
inductive ResumeOutcome where
  | ok (st : AgentState)
  | failed (e : ResumeError) (st : AgentState)
deriving DecidableEq

/-- State a resume call leaves the thread in, whether or not it failed. -/
def resumeStateOf : ResumeOutcome → AgentState
  | .ok st => st
  | .failed _ st => st

/-- Modelled from the spec: the resume entry point (spec section 4.3 step 4
and section 4.4), the abstraction of `graph.stream(Command(resume=...))` in
src/langgraph/4-hitl.py lines 103-118.  With no pending interrupt it fails
with NoPendingInterruptError and the state is unchanged.  Otherwise the
suspended tool body completes from the resume data (a failure there, such as
the KeyError of human_assistance on a payload without "data", fails the call
with the state unchanged), the buffered remaining calls execute, the
buffered and new ToolResultTurns are appended in batch order, and control
returns to MODEL_TURN; if a remaining call itself requests human input the
thread suspends again with the enlarged buffer. -/
def resume (invoke : ToolCall → ToolBehavior)
    (complete : ToolCall → KV → Option String)
    (st : AgentState) (data : KV) : ResumeOutcome :=
  match st.phase with
  | .suspended pend =>
      match complete pend.call data with
      | none => .failed (.toolExecutionFailed pend.call.name) st
      | some r =>
          match execBatch invoke pend.remaining with
          | .completed rs =>
              .ok { turns := st.turns ++ pend.doneResults
                      ++ [Turn.toolResult pend.call.id r] ++ rs,
                    phase := .modelTurn }
          | .suspendedAt ds c p rest =>
              .ok { turns := st.turns,
                    phase := .suspended
                      ⟨p, c,
                       pend.doneResults ++ [Turn.toolResult pend.call.id r] ++ ds,
                       rest, st.turns.length⟩ }
  | _ => .failed .noPendingInterrupt st

/-- Modelled from the spec: the states one thread can reach from the empty
conversation under arbitrary driver events — user messages, model steps with
an arbitrary gateway, tool steps with an arbitrary registry, and resume
calls with arbitrary resume data (spec sections 4.3 and 6). -/
inductive Reachable (sys : String) : AgentState → Prop where
  | init : Reachable sys ⟨[], .awaitingUserInput⟩
  | user (st : AgentState) (text : String) :
      Reachable sys st → Reachable sys (submitUserMessage sys st text)
  | model (st : AgentState) (gw : List Turn → GatewayResult) :
      Reachable sys st → Reachable sys (stateOf (stepModel sys gw st))
  | tools (st : AgentState) (invoke : ToolCall → ToolBehavior) :
      Reachable sys st → Reachable sys (stepTools invoke st)
  | res (st : AgentState) (invoke : ToolCall → ToolBehavior)
      (complete : ToolCall → KV → Option String) (data : KV) :
      Reachable sys st →
      Reachable sys (resumeStateOf (resume invoke complete st data))

/-- A batch in which every call's tool completes synchronously produces the
ordered list of ToolResultTurns, one per call. -/
theorem execBatch_all_ret (invoke : ToolCall → ToolBehavior) :
    ∀ cs : List ToolCall, (∀ x ∈ cs, ∃ v, invoke x = .ret v) →
    execBatch invoke cs
      = .completed (cs.map fun x => Turn.toolResult x.id (retOf (invoke x)))
  | [], _ => rfl
  | c :: cs, h => by
      obtain ⟨v, hv⟩ := h c (List.mem_cons_self c cs)
      have ih := execBatch_all_ret invoke cs
        (fun x hx => h x (List.mem_cons_of_mem c hx))
      simp [execBatch, hv, ih, retOf]

/-- A batch whose prefix completes synchronously and whose next call requests
human input suspends there, buffering the prefix results and the remaining
calls. -/
theorem execBatch_suspend_at (invoke : ToolCall → ToolBehavior)
    (c : ToolCall) (p : KV) (post : List ToolCall) (hc : invoke c = .needHuman p) :
    ∀ pre : List ToolCall, (∀ x ∈ pre, ∃ v, invoke x = .ret v) →
    execBatch invoke (pre ++ c :: post)
      = .suspendedAt (pre.map fun x => Turn.toolResult x.id (retOf (invoke x)))
          c p post
  | [], _ => by simp [execBatch, hc]
  | a :: pre, h => by
      obtain ⟨v, hv⟩ := h a (List.mem_cons_self a pre)
      have ih := execBatch_suspend_at invoke c p post hc pre
        (fun x hx => h x (List.mem_cons_of_mem a hx))
      simp [execBatch, hv, ih, retOf]

/-- Every result a batch has produced, completed or buffered at suspension,
is a ToolResultTurn. -/
theorem execBatch_results_toolResult (invoke : ToolCall → ToolBehavior) :
    ∀ cs : List ToolCall, ∀ t ∈ resultsOf (execBatch invoke cs),
      isToolResultTurn t = true := by
  intro cs
  induction cs with
  | nil => intro t ht; simp [execBatch, resultsOf] at ht
  | cons c cs ih =>
      intro t ht
      cases hv : invoke c with
      | needHuman p => simp [execBatch, hv, resultsOf] at ht
      | ret r =>
          cases hb : execBatch invoke cs with
          | completed rs =>
              simp [execBatch, hv, hb, resultsOf] at ht
              rcases ht with rfl | ht
              · rfl
              · exact ih t (by simp [hb, resultsOf, ht])
          | suspendedAt ds c₂ p rest =>
              simp [execBatch, hv, hb, resultsOf] at ht
              rcases ht with rfl | ht
              · rfl
              · exact ih t (by simp [hb, resultsOf, ht])

/-- Tool-result turns are not system turns. -/
theorem isSystem_of_toolResult {t : Turn} (h : isToolResultTurn t = true) :
    isSystem t = false := by
  cases t <;> simp_all [isToolResultTurn, isSystem]

/-- A list of tool-result turns contains no system turn. -/
theorem countP_isSystem_zero {l : List Turn}
    (h : ∀ t ∈ l, isToolResultTurn t = true) :
    l.countP (fun t => isSystem t) = 0 := by
  rw [List.countP_eq_zero]
  intro t ht
  simp [isSystem_of_toolResult (h t ht)]

/-- Appending to a nonempty list does not change its head. -/
theorem head_append_of_ne_nil {α : Type} {l l₂ : List α} {a : α}
    (h : l.head? = some a) : (l ++ l₂).head? = some a := by
  cases l with
  | nil => simp at h
  | cons x xs => simpa using h

/-- C10: tavily_search performs the search with max_results = 2 when the
argument is absent and with the supplied value otherwise, passing the query
through unchanged to the external search collaborator; its result depends
only on its arguments (it reads no conversation state). -/
theorem tavily_search_defaults (search : String → Int → String)
    (query : String) :
    tavily_search search query none = search query 2
    ∧ ∀ m : Int, tavily_search search query (some m) = search query m :=
  ⟨rfl, fun _ => rfl⟩

/-- C8: resuming a pending human_assistance interrupt with payload p
completes the tool with result exactly the value of p at key "data"; when p
has no "data" key the tool invocation fails instead of completing with a
result, leaving the state unchanged. -/
theorem human_assistance_resume_spec (invoke : ToolCall → ToolBehavior)
    (st : AgentState) (pend : PendingInterrupt) (p : KV)
    (hph : st.phase = .suspended pend)
    (hname : pend.call.name = "human_assistance")
    (hrem : pend.remaining = []) :
    (∀ v, p.lookup "data" = some v →
      resume invoke hitlComplete st p
        = .ok ⟨st.turns ++ pend.doneResults
                ++ [Turn.toolResult pend.call.id v], .modelTurn⟩)
    ∧ (p.lookup "data" = none →
      resume invoke hitlComplete st p
        = .failed (.toolExecutionFailed "human_assistance") st) := by
  constructor
  · intro v hv
    simp [resume, hph, hitlComplete, hname, human_assistance_resume, hv, hrem,
      execBatch]
  · intro hv
    simp [resume, hph, hitlComplete, hname, human_assistance_resume, hv]

/-- Witness call that suspends for human assistance. -/
def w8Call : ToolCall :=
  { id := "call1", name := "human_assistance", arguments := "please review" }

/-- Witness pending interrupt raised by w8Call. -/
def w8Pending : PendingInterrupt :=
  { payload := [("query", "please review")], call := w8Call,
    doneResults := [], remaining := [], position := 0 }

/-- Witness suspended state. -/
def w8State : AgentState := { turns := [], phase := .suspended w8Pending }

/-- Witness tool dispatch: every call runs human_assistance on its
arguments. -/
def w8Invoke : ToolCall → ToolBehavior := fun c => human_assistance c.arguments

theorem human_assistance_resume_spec_witness :
    (∀ v, ([("data", "yes")] : KV).lookup "data" = some v →
      resume w8Invoke hitlComplete w8State [("data", "yes")]
        = .ok ⟨w8State.turns ++ w8Pending.doneResults
                ++ [Turn.toolResult w8Pending.call.id v], .modelTurn⟩)
    ∧ (([("data", "yes")] : KV).lookup "data" = none →
      resume w8Invoke hitlComplete w8State [("data", "yes")]
        = .failed (.toolExecutionFailed "human_assistance") w8State) :=
  human_assistance_resume_spec w8Invoke w8State w8Pending [("data", "yes")]
    rfl rfl rfl

/-- C6: a resume call on a thread with no pending interrupt always fails
with NoPendingInterruptError, and the conversation state is unchanged by the
failed call. -/
theorem resume_without_pending_fails (invoke : ToolCall → ToolBehavior)
    (complete : ToolCall → KV → Option String) (st : AgentState) (d : KV)
    (h : hasPendingInterrupt st = false) :
    resume invoke complete st d = .failed .noPendingInterrupt st := by
  cases hph : st.phase with
  | suspended pend => simp [hasPendingInterrupt, hph] at h
  | awaitingUserInput => simp [resume, hph]
  | modelTurn => simp [resume, hph]
  | toolTurn batch => simp [resume, hph]
  | done => simp [resume, hph]

/-- Witness state with no pending interrupt. -/
def w6State : AgentState :=
  { turns := [Turn.user "hi"], phase := .awaitingUserInput }

theorem resume_without_pending_fails_witness :
    resume w8Invoke hitlComplete w6State [("data", "yes")]
      = .failed .noPendingInterrupt w6State :=
  resume_without_pending_fails w8Invoke hitlComplete w6State [("data", "yes")]
    rfl

/-- C5: a GatewayError during MODEL_TURN appends no turn — the resulting
state carries exactly the turns of the last successfully completed turn —
and the loop accepts the next user message normally. -/
theorem gateway_error_preserves_state (sys : String)
    (gw : List Turn → GatewayResult) (turns : List Turn) (e : GatewayError)
    (u : String) (hgw : gw (ensureSystem sys turns) = .err e) :
    stepModel sys gw ⟨turns, .modelTurn⟩
      = .gatewayFailed e ⟨turns, .awaitingUserInput⟩
    ∧ submitUserMessage sys ⟨turns, .awaitingUserInput⟩ u
      = ⟨ensureSystem sys turns ++ [Turn.user u], .modelTurn⟩ := by
  constructor
  · simp [stepModel, hgw]
  · rfl

/-- Witness gateway that always fails. -/
def w5Gw : List Turn → GatewayResult :=
  fun _ => .err { status := 429, message := "rate limited" }

theorem gateway_error_preserves_state_witness :
    stepModel "sys" w5Gw ⟨[], .modelTurn⟩
      = .gatewayFailed { status := 429, message := "rate limited" }
          ⟨[], .awaitingUserInput⟩
    ∧ submitUserMessage "sys" ⟨[], .awaitingUserInput⟩ "hello"
      = ⟨ensureSystem "sys" [] ++ [Turn.user "hello"], .modelTurn⟩ :=
  gateway_error_preserves_state "sys" w5Gw []
    { status := 429, message := "rate limited" } "hello" rfl

/-- C2: executing the tool batch of an AssistantTurn appends exactly one
ToolResultTurn per ToolCall, in the order the ToolCalls were emitted, and
the tool_call_id of each appended ToolResultTurn equals the id of the
ToolCall at the same position. -/
theorem tool_results_match_calls (invoke : ToolCall → ToolBehavior)
    (turns : List Turn) (cs : List ToolCall)
    (h : ∀ x ∈ cs, ∃ v, invoke x = .ret v) :
    stepTools invoke ⟨turns, .toolTurn cs⟩
      = ⟨turns ++ cs.map (fun x => Turn.toolResult x.id (retOf (invoke x))),
         .modelTurn⟩
    ∧ (cs.map (fun x => Turn.toolResult x.id (retOf (invoke x)))).length
        = cs.length
    ∧ (cs.map (fun x => Turn.toolResult x.id (retOf (invoke x)))).map
          turnCallId
        = cs.map ToolCall.id := by
  refine ⟨?_, by simp, ?_⟩
  · simp [stepTools, execBatch_all_ret invoke cs h]
  · simp [List.map_map, turnCallId]

/-- Witness tool dispatch: every call completes synchronously. -/
def w2Invoke : ToolCall → ToolBehavior := fun c => .ret ("ok " ++ c.name)

/-- Witness batch of two tool calls. -/
def w2Calls : List ToolCall :=
  [{ id := "id1", name := "tavily_search", arguments := "langgraph" },
   { id := "id2", name := "human_assistance", arguments := "help" }]

theorem tool_results_match_calls_witness :
    stepTools w2Invoke ⟨[], .toolTurn w2Calls⟩
      = ⟨[] ++ w2Calls.map
            (fun x => Turn.toolResult x.id (retOf (w2Invoke x))),
         .modelTurn⟩
    ∧ (w2Calls.map (fun x => Turn.toolResult x.id (retOf (w2Invoke x)))).length
        = w2Calls.length
    ∧ (w2Calls.map (fun x => Turn.toolResult x.id (retOf (w2Invoke x)))).map
          turnCallId
        = w2Calls.map ToolCall.id :=
  tool_results_match_calls w2Invoke [] w2Calls
    (fun x _ => ⟨"ok " ++ x.name, rfl⟩)

/-- C4: a model response with at least one tool call routes the loop to
TOOL_TURN; once every ToolCall of a batch is resolved, control returns to
MODEL_TURN, and a tool step never appends an assistant reply (only tool
results); a model response with no tool calls goes straight to
AWAITING_USER_INPUT with no TOOL_TURN. -/
theorem agent_loop_routing (sys : String) (gw : List Turn → GatewayResult)
    (invoke : ToolCall → ToolBehavior) (turns : List Turn) (text : String)
    (calls : List ToolCall)
    (hgw : gw (ensureSystem sys turns) = .ok text calls) :
    (calls ≠ [] →
      stepModel sys gw ⟨turns, .modelTurn⟩
        = .ok ⟨turns ++ [Turn.assistant text calls], .toolTurn calls⟩)
    ∧ (calls = [] →
      stepModel sys gw ⟨turns, .modelTurn⟩
        = .ok ⟨turns ++ [Turn.assistant text []], .awaitingUserInput⟩)
    ∧ (∀ (turns₂ : List Turn) (cs : List ToolCall),
        (∀ x ∈ cs, ∃ v, invoke x = .ret v) →
        (stepTools invoke ⟨turns₂, .toolTurn cs⟩).phase = .modelTurn)
    ∧ (∀ st : AgentState, ∀ t ∈ (stepTools invoke st).turns,
        t ∈ st.turns ∨ isToolResultTurn t = true) := by
  refine ⟨?_, ?_, ?_, ?_⟩
  · intro h
    simp [stepModel, hgw, h]
  · intro h
    subst h
    simp [stepModel, hgw]
  · intro turns₂ cs hcs
    simp [stepTools, execBatch_all_ret invoke cs hcs]
  · intro st t ht
    cases hph : st.phase with
    | toolTurn batch =>
        cases hb : execBatch invoke batch with
        | completed rs =>
            simp [stepTools, hph, hb] at ht
            rcases ht with ht | ht
            · exact Or.inl ht
            · exact Or.inr (execBatch_results_toolResult invoke batch t
                (by simp [hb, resultsOf, ht]))
        | suspendedAt ds c p rest =>
            simp [stepTools, hph, hb] at ht
            exact Or.inl ht
    | awaitingUserInput => simp [stepTools, hph] at ht; exact Or.inl ht
    | modelTurn => simp [stepTools, hph] at ht; exact Or.inl ht
    | suspended pend => simp [stepTools, hph] at ht; exact Or.inl ht
    | done => simp [stepTools, hph] at ht; exact Or.inl ht

/-- Witness gateway that replies with text plus the w2Calls batch. -/
def w4Gw : List Turn → GatewayResult := fun _ => .ok "Searching." w2Calls

theorem agent_loop_routing_witness :
    (w2Calls ≠ [] →
      stepModel "sys" w4Gw ⟨[], .modelTurn⟩
        = .ok ⟨[] ++ [Turn.assistant "Searching." w2Calls], .toolTurn w2Calls⟩)
    ∧ (w2Calls = [] →
      stepModel "sys" w4Gw ⟨[], .modelTurn⟩
        = .ok ⟨[] ++ [Turn.assistant "Searching." []], .awaitingUserInput⟩)
    ∧ (∀ (turns₂ : List Turn) (cs : List ToolCall),
        (∀ x ∈ cs, ∃ v, w2Invoke x = .ret v) →
        (stepTools w2Invoke ⟨turns₂, .toolTurn cs⟩).phase = .modelTurn)
    ∧ (∀ st : AgentState, ∀ t ∈ (stepTools w2Invoke st).turns,
        t ∈ st.turns ∨ isToolResultTurn t = true) :=
  agent_loop_routing "sys" w4Gw w2Invoke [] "Searching." w2Calls rfl

/-- C1: suspend/resume is transparent to the conversation log: when call c
of a batch raises an interrupt with payload p and the loop is resumed with
data d, the final state equals the one produced by running the same batch
with the suspending tool synchronously returning the d-derived result, and
that state is back at MODEL_TURN. -/
theorem suspend_resume_transparent
    (invoke invoke₂ : ToolCall → ToolBehavior)
    (complete : ToolCall → KV → Option String)
    (turns : List Turn) (pre post : List ToolCall) (c : ToolCall)
    (p : KV) (d : KV) (r : String)
    (hpre : ∀ x ∈ pre, ∃ v, invoke x = .ret v)
    (hc : invoke c = .needHuman p)
    (hpost : ∀ x ∈ post, ∃ v, invoke x = .ret v)
    (hcomp : complete c d = some r)
    (hagree : ∀ x, x ∈ pre ∨ x ∈ post → invoke₂ x = invoke x)
    (hsync : invoke₂ c = .ret r) :
    resume invoke complete
        (stepTools invoke ⟨turns, .toolTurn (pre ++ c :: post)⟩) d
      = .ok (stepTools invoke₂ ⟨turns, .toolTurn (pre ++ c :: post)⟩)
    ∧ (stepTools invoke₂ ⟨turns, .toolTurn (pre ++ c :: post)⟩).phase
        = .modelTurn := by
  have hall : ∀ x ∈ pre ++ c :: post, ∃ v, invoke₂ x = .ret v := by
    intro x hx
    rcases List.mem_append.mp hx with hx | hx
    · obtain ⟨v, hv⟩ := hpre x hx
      exact ⟨v, by rw [hagree x (Or.inl hx), hv]⟩
    · rcases List.mem_cons.mp hx with rfl | hx
      · exact ⟨r, hsync⟩
      · obtain ⟨v, hv⟩ := hpost x hx
        exact ⟨v, by rw [hagree x (Or.inr hx), hv]⟩
  have h1 : stepTools invoke ⟨turns, .toolTurn (pre ++ c :: post)⟩
      = ⟨turns, .suspended
          ⟨p, c, pre.map (fun x => Turn.toolResult x.id (retOf (invoke x))),
           post, turns.length⟩⟩ := by
    simp [stepTools, execBatch_suspend_at invoke c p post hc pre hpre]
  have h2 : stepTools invoke₂ ⟨turns, .toolTurn (pre ++ c :: post)⟩
      = ⟨turns ++ (pre ++ c :: post).map
            (fun x => Turn.toolResult x.id (retOf (invoke₂ x))),
         .modelTurn⟩ := by
    simp [stepTools, execBatch_all_ret invoke₂ (pre ++ c :: post) hall]
  have hpremap : pre.map (fun x => Turn.toolResult x.id (retOf (invoke₂ x)))
      = pre.map (fun x => Turn.toolResult x.id (retOf (invoke x))) :=
    List.map_congr_left (fun x hx => by rw [hagree x (Or.inl hx)])
  have hpostmap : post.map (fun x => Turn.toolResult x.id (retOf (invoke₂ x)))
      = post.map (fun x => Turn.toolResult x.id (retOf (invoke x))) :=
    List.map_congr_left (fun x hx => by rw [hagree x (Or.inr hx)])
  rw [h1, h2]
  refine ⟨?_, rfl⟩
  simp only [resume, hcomp, execBatch_all_ret invoke post hpost]
  simp only [List.map_append, List.map_cons, hpremap, hpostmap, hsync]
  simp [retOf, List.append_assoc]

/-- Witness call whose tool requests human approval. -/
def w1Call : ToolCall :=
  { id := "call1", name := "human_assistance", arguments := "approve?" }

/-- Witness counterfactual tool dispatch in which the tool synchronously
returns the resume-derived result. -/
def w1Sync : ToolCall → ToolBehavior := fun _ => .ret "yes"

theorem suspend_resume_transparent_witness :
    resume w8Invoke hitlComplete
        (stepTools w8Invoke ⟨[], .toolTurn [w1Call]⟩) [("data", "yes")]
      = .ok (stepTools w1Sync ⟨[], .toolTurn [w1Call]⟩)
    ∧ (stepTools w1Sync ⟨[], .toolTurn [w1Call]⟩).phase = .modelTurn :=
  suspend_resume_transparent w8Invoke w1Sync hitlComplete [] [] [] w1Call
    [("query", "approve?")] [("data", "yes")] "yes"
    (fun x hx => absurd hx (List.not_mem_nil x)) rfl
    (fun x hx => absurd hx (List.not_mem_nil x)) (by decide)
    (fun x hx => absurd (hx.elim id id) (List.not_mem_nil x)) rfl

/-- Every reachable state is either the pristine initial state or carries
the unique system turn first; buffered results of a pending interrupt never
contain a system turn. -/
theorem reachable_inv (sys : String) (st : AgentState)
    (h : Reachable sys st) :
    ((st.turns = [] ∧ st.phase = .awaitingUserInput)
      ∨ (st.turns.head? = some (Turn.system sys)
          ∧ st.turns.countP (fun t => isSystem t) = 1))
    ∧ (∀ pend, st.phase = .suspended pend →
        pend.doneResults.countP (fun t => isSystem t) = 0) := by
  induction h with
  | init => exact ⟨Or.inl ⟨rfl, rfl⟩, fun pend hp => nomatch hp⟩
  | user st text hst ih =>
      cases hph : st.phase with
      | awaitingUserInput =>
          refine ⟨?_, ?_⟩
          · rcases ih.1 with ⟨ht, _⟩ | ⟨hhead, hcount⟩
            · refine Or.inr ?_
              simp [submitUserMessage, hph, ht, ensureSystem, startsWithSystem,
                List.countP_cons, isSystem]
            · cases hts : st.turns with
              | nil => rw [hts] at hhead; simp at hhead
              | cons a l =>
                  rw [hts] at hhead
                  simp at hhead
                  subst hhead
                  refine Or.inr ?_
                  rw [hts] at hcount
                  simp [submitUserMessage, hph, hts, ensureSystem,
                    startsWithSystem, List.countP_append, List.countP_cons,
                    isSystem] at hcount ⊢
                  simpa [List.countP_cons, isSystem] using hcount
          · intro pend hp
            simp [submitUserMessage, hph] at hp
      | modelTurn => simpa [submitUserMessage, hph] using ih
      | toolTurn batch => simpa [submitUserMessage, hph] using ih
      | suspended pend => simpa [submitUserMessage, hph] using ih
      | done => simpa [submitUserMessage, hph] using ih
  | model st gw hst ih =>
      cases hph : st.phase with
      | modelTurn =>
          cases hgw : gw (ensureSystem sys st.turns) with
          | err e =>
              have hstate : stateOf (stepModel sys gw st)
                  = ⟨st.turns, .awaitingUserInput⟩ := by
                simp [stepModel, hph, hgw, stateOf]
              rw [hstate]
              rcases ih.1 with ⟨_, hphase⟩ | ⟨hhead, hcount⟩
              · rw [hph] at hphase; cases hphase
              · exact ⟨Or.inr ⟨hhead, hcount⟩, fun pend hp => nomatch hp⟩
          | ok text calls =>
              have hstate : stateOf (stepModel sys gw st)
                  = ⟨st.turns ++ [Turn.assistant text calls],
                     if calls.isEmpty then .awaitingUserInput
                     else .toolTurn calls⟩ := by
                simp [stepModel, hph, hgw, stateOf]
              rw [hstate]
              rcases ih.1 with ⟨_, hphase⟩ | ⟨hhead, hcount⟩
              · rw [hph] at hphase; cases hphase
              · refine ⟨Or.inr ⟨head_append_of_ne_nil hhead, ?_⟩, ?_⟩
                · simp only [List.countP_append]
                  rw [hcount]
                  simp [List.countP_cons, isSystem]
                · intro pend hp
                  by_cases hc : calls.isEmpty <;> simp [hc] at hp
      | awaitingUserInput =>
          have hstate : stateOf (stepModel sys gw st) = st := by
            simp [stepModel, hph, stateOf]
          rw [hstate]; exact ih
      | toolTurn batch =>
          have hstate : stateOf (stepModel sys gw st) = st := by
            simp [stepModel, hph, stateOf]
          rw [hstate]; exact ih
      | suspended pend =>
          have hstate : stateOf (stepModel sys gw st) = st := by
            simp [stepModel, hph, stateOf]
          rw [hstate]; exact ih
      | done =>
          have hstate : stateOf (stepModel sys gw st) = st := by
            simp [stepModel, hph, stateOf]
          rw [hstate]; exact ih
  | tools st invoke hst ih =>
      cases hph : st.phase with
      | toolTurn batch =>
          cases hb : execBatch invoke batch with
          | completed rs =>
              have hstate : stepTools invoke st
                  = ⟨st.turns ++ rs, .modelTurn⟩ := by
                simp [stepTools, hph, hb]
              rw [hstate]
              rcases ih.1 with ⟨_, hphase⟩ | ⟨hhead, hcount⟩
              · rw [hph] at hphase; cases hphase
              · refine ⟨Or.inr ⟨head_append_of_ne_nil hhead, ?_⟩,
                  fun pend hp => nomatch hp⟩
                have hrs : rs.countP (fun t => isSystem t) = 0 :=
                  countP_isSystem_zero (fun t ht =>
                    execBatch_results_toolResult invoke batch t
                      (by simp [hb, resultsOf, ht]))
                simp [List.countP_append, hcount, hrs]
          | suspendedAt ds c p rest =>
              have hstate : stepTools invoke st
                  = ⟨st.turns,
                     .suspended ⟨p, c, ds, rest, st.turns.length⟩⟩ := by
                simp [stepTools, hph, hb]
              rw [hstate]
              rcases ih.1 with ⟨_, hphase⟩ | ⟨hhead, hcount⟩
              · rw [hph] at hphase; cases hphase
              · refine ⟨Or.inr ⟨hhead, hcount⟩, ?_⟩
                intro pend hp
                simp at hp
                rw [← hp]
                exact countP_isSystem_zero (fun t ht =>
                  execBatch_results_toolResult invoke batch t
                    (by simp [hb, resultsOf, ht]))
      | awaitingUserInput =>
          have hstate : stepTools invoke st = st := by simp [stepTools, hph]
          rw [hstate]; exact ih
      | modelTurn =>
          have hstate : stepTools invoke st = st := by simp [stepTools, hph]
          rw [hstate]; exact ih
      | suspended pend =>
          have hstate : stepTools invoke st = st := by simp [stepTools, hph]
          rw [hstate]; exact ih
      | done =>
          have hstate : stepTools invoke st = st := by simp [stepTools, hph]
          rw [hstate]; exact ih
  | res st invoke complete data hst ih =>
      cases hph : st.phase with
      | suspended pend₀ =>
          have hdone : pend₀.doneResults.countP (fun t => isSystem t) = 0 :=
            ih.2 pend₀ hph
          cases hcv : complete pend₀.call data with
          | none =>
              have hstate : resumeStateOf (resume invoke complete st data)
                  = st := by
                simp [resume, hph, hcv, resumeStateOf]
              rw [hstate]; exact ih
          | some r =>
              cases hb : execBatch invoke pend₀.remaining with
              | completed rs =>
                  have hstate : resumeStateOf (resume invoke complete st data)
                      = ⟨st.turns ++ pend₀.doneResults
                          ++ [Turn.toolResult pend₀.call.id r] ++ rs,
                         .modelTurn⟩ := by
                    simp [resume, hph, hcv, hb, resumeStateOf]
                  rw [hstate]
                  rcases ih.1 with ⟨_, hphase⟩ | ⟨hhead, hcount⟩
                  · rw [hph] at hphase; cases hphase
                  · refine ⟨Or.inr ⟨?_, ?_⟩, fun pend hp => nomatch hp⟩
                    · exact head_append_of_ne_nil
                        (head_append_of_ne_nil (head_append_of_ne_nil hhead))
                    · have hrs : rs.countP (fun t => isSystem t) = 0 :=
                        countP_isSystem_zero (fun t ht =>
                          execBatch_results_toolResult invoke pend₀.remaining t
                            (by simp [hb, resultsOf, ht]))
                      simp only [List.countP_append]
                      rw [hcount, hdone, hrs]
                      simp [List.countP_cons, isSystem]
              | suspendedAt ds c p rest =>
                  have hstate : resumeStateOf (resume invoke complete st data)
                      = ⟨st.turns,
                         .suspended ⟨p, c,
                           pend₀.doneResults
                             ++ [Turn.toolResult pend₀.call.id r] ++ ds,
                           rest, st.turns.length⟩⟩ := by
                    simp [resume, hph, hcv, hb, resumeStateOf]
                  rw [hstate]
                  rcases ih.1 with ⟨_, hphase⟩ | ⟨hhead, hcount⟩
                  · rw [hph] at hphase; cases hphase
                  · refine ⟨Or.inr ⟨hhead, hcount⟩, ?_⟩
                    intro pend hp
                    simp at hp
                    rw [← hp]
                    have hds : ds.countP (fun t => isSystem t) = 0 :=
                      countP_isSystem_zero (fun t ht =>
                        execBatch_results_toolResult invoke pend₀.remaining t
                          (by simp [hb, resultsOf, ht]))
                    simp only [List.countP_append, List.countP_cons]
                    rw [hdone, hds]
                    simp [isSystem]
      | awaitingUserInput =>
          have hstate : resumeStateOf (resume invoke complete st data)
              = st := by simp [resume, hph, resumeStateOf]
          rw [hstate]; exact ih
      | modelTurn =>
          have hstate : resumeStateOf (resume invoke complete st data)
              = st := by simp [resume, hph, resumeStateOf]
          rw [hstate]; exact ih
      | toolTurn batch =>
          have hstate : resumeStateOf (resume invoke complete st data)
              = st := by simp [resume, hph, resumeStateOf]
          rw [hstate]; exact ih
      | done =>
          have hstate : resumeStateOf (resume invoke complete st data)
              = st := by simp [resume, hph, resumeStateOf]
          rw [hstate]; exact ih

/-- C3: in every reachable state with a nonempty conversation the turn at
index 0 is the unique system turn — no other system turn exists — and the
system turn is inserted at position 0 exactly when the first user message of
the thread arrives. -/
theorem system_turn_unique (sys : String) (st : AgentState) (t₀ : String)
    (h : Reachable sys st) (hne : st.turns ≠ []) :
    st.turns.head? = some (Turn.system sys)
    ∧ st.turns.countP (fun t => isSystem t) = 1
    ∧ (submitUserMessage sys ⟨[], .awaitingUserInput⟩ t₀).turns
        = [Turn.system sys, Turn.user t₀] := by
  rcases (reachable_inv sys st h).1 with ⟨ht, _⟩ | ⟨h1, h2⟩
  · exact absurd ht hne
  · exact ⟨h1, h2, by simp [submitUserMessage, ensureSystem, startsWithSystem]⟩

theorem system_turn_unique_witness :
    (submitUserMessage SYSTEM_PROMPT ⟨[], .awaitingUserInput⟩ "hello").turns.head?
        = some (Turn.system SYSTEM_PROMPT)
    ∧ (submitUserMessage SYSTEM_PROMPT ⟨[], .awaitingUserInput⟩
          "hello").turns.countP (fun t => isSystem t) = 1
    ∧ (submitUserMessage SYSTEM_PROMPT ⟨[], .awaitingUserInput⟩ "hello").turns
        = [Turn.system SYSTEM_PROMPT, Turn.user "hello"] :=
  system_turn_unique SYSTEM_PROMPT _ "hello"
    (Reachable.user _ "hello" Reachable.init) (by decide)

/-- One content entry of a Responses-API message output item
(src/langgraph/tools.py lines 139-144): output text, or some other content
kind the conversion skips. -/
inductive ContentItem where
  | outputText (text : String)
  | otherContent
deriving DecidableEq

/-- One item of a Responses-API response output (src/langgraph/tools.py
lines 139-154): a message item carrying content entries, a function-call
item, or some other item kind the conversion skips. -/
inductive RespItem where
  | message (content : List ContentItem)
  | functionCall (call_id : String) (name : String) (arguments : String)
  | otherItem
deriving DecidableEq

/-- Whether a content entry is output text. -/
def isOutputText : ContentItem → Bool
  | .outputText _ => true
  | .otherContent => false

/-- Whether a response item contains any output text. -/
def hasOutputText : RespItem → Bool
  | .message cs => cs.any isOutputText
  | _ => false

/-- Text accumulated from the content entries of one message item
(src/langgraph/tools.py lines 141-144): output_text entries are
concatenated, everything else is skipped. -/
def textOfContents : List ContentItem → String
  | [] => ""
  | .outputText t :: rest => t ++ textOfContents rest
  | .otherContent :: rest => textOfContents rest

/-- text_content accumulated over the whole response output
(src/langgraph/tools.py lines 137-144), starting from the empty string. -/
def collectText : List RespItem → String
  | [] => ""
  | .message cs :: rest => textOfContents cs ++ collectText rest
  | .functionCall _ _ _ :: rest => collectText rest
  | .otherItem :: rest => collectText rest

/-- tool_calls collected over the whole response output
(src/langgraph/tools.py lines 146-154), one entry per function_call item, in
output order. -/
def collectCalls : List RespItem → List ToolCall
  | [] => []
  | .functionCall cid nm args :: rest => ⟨cid, nm, args⟩ :: collectCalls rest
  | .message _ :: rest => collectCalls rest
  | .otherItem :: rest => collectCalls rest

/-- An OpenAI-format chat message dictionary as handled by
src/langgraph/tools.py: role and content always present, tool_calls, name
and tool_call_id present only when the corresponding key exists. -/
structure OAIMsg where
  role : String
  content : String
  tool_calls : Option (List ToolCall) := none
  name : Option String := none
  tool_call_id : Option String := none
deriving DecidableEq

/-- The assistant message built from a Responses-API output
(src/langgraph/tools.py lines 156-164): role "assistant", content always set
to the accumulated text_content, and a tool_calls field added only if any
function calls were made. -/
def buildAssistantMessage (output : List RespItem) : OAIMsg :=
  { role := "assistant",
    content := collectText output,
    tool_calls := if (collectCalls output).isEmpty then none
                  else some (collectCalls output) }

/-- Content entries with no output text accumulate to the empty string. -/
theorem textOfContents_eq_empty :
    ∀ cs : List ContentItem, (∀ x ∈ cs, isOutputText x = false) →
    textOfContents cs = ""
  | [], _ => rfl
  | .outputText t :: rest, h =>
      absurd (h _ (List.mem_cons_self _ _)) (by simp [isOutputText])
  | .otherContent :: rest, h =>
      textOfContents_eq_empty rest (fun x hx => h x (List.mem_cons_of_mem _ hx))

/-- A response output with no output text accumulates the empty string. -/
theorem collectText_eq_empty :
    ∀ output : List RespItem, (∀ item ∈ output, hasOutputText item = false) →
    collectText output = ""
  | [], _ => rfl
  | .message cs :: rest, h => by
      have hm : cs.any isOutputText = false :=
        h (.message cs) (List.mem_cons_self _ _)
      have hcs : ∀ x ∈ cs, isOutputText x = false := by
        intro x hx
        cases hb : isOutputText x with
        | false => rfl
        | true =>
            exact absurd (List.any_eq_true.mpr ⟨x, hx, hb⟩) (by simp [hm])
      simp [collectText, textOfContents_eq_empty cs hcs,
        collectText_eq_empty rest (fun i hi => h i (List.mem_cons_of_mem _ hi))]
  | .functionCall cid nm args :: rest, h =>
      collectText_eq_empty rest (fun i hi => h i (List.mem_cons_of_mem _ hi))
  | .otherItem :: rest, h =>
      collectText_eq_empty rest (fun i hi => h i (List.mem_cons_of_mem _ hi))

/-- C7: a gateway response carrying one or more tool calls but producing no
text yields an assistant message whose text field is present and equal to
the empty string (never omitted), so the assistant turn shape is uniform. -/
theorem empty_text_stored_not_omitted (output : List RespItem)
    (hnotext : ∀ item ∈ output, hasOutputText item = false)
    (hcalls : collectCalls output ≠ []) :
    buildAssistantMessage output
      = { role := "assistant", content := "",
          tool_calls := some (collectCalls output) } := by
  simp [buildAssistantMessage, collectText_eq_empty output hnotext, hcalls]

/-- Witness response output: one function call, no message item. -/
def w7Output : List RespItem :=
  [RespItem.functionCall "c1" "tavily_search" "langgraph news"]

theorem empty_text_stored_not_omitted_witness :
    buildAssistantMessage w7Output
      = { role := "assistant", content := "",
          tool_calls := some (collectCalls w7Output) } :=
  empty_text_stored_not_omitted w7Output (by decide) (by decide)

/-- The Responses-API message filter of chatbot (src/langgraph/tools.py
lines 92-109): an assistant message carrying a tool_calls field is kept with
only its role and content; a tool-role message is re-rendered as an
assistant message whose content prefixes the tool output with the tool name
(defaulting to "tool"); every other message is kept as-is. -/
def filterMessage (msg : OAIMsg) : OAIMsg :=
  if msg.role = "assistant" ∧ msg.tool_calls.isSome then
    { role := msg.role, content := msg.content }
  else if msg.role = "tool" then
    { role := "assistant",
      content := "[Tool Result from " ++ msg.name.getD "tool" ++ "]: "
          ++ msg.content }
  else
    msg

/-- filtered_messages of chatbot (src/langgraph/tools.py lines 93-109): the
filter applied to each converted message in order. -/
def filterMessages (msgs : List OAIMsg) : List OAIMsg :=
  msgs.map filterMessage

/-- C9: in the tools.py variant the message sequence prepared for the
gateway never contains a tool-role message and never carries a tool_calls
field; an assistant message with tool_calls is stripped to role and content,
a tool message is re-rendered as an assistant message prefixing the tool
output with the tool name, and every other message passes through
unchanged.  The hypothesis states the OpenAI-format invariant that only
assistant messages carry tool_calls. -/
theorem filtered_messages_shape (msgs : List OAIMsg)
    (hwf : ∀ m ∈ msgs, m.tool_calls ≠ none → m.role = "assistant") :
    (∀ m ∈ filterMessages msgs, m.role ≠ "tool" ∧ m.tool_calls = none)
    ∧ (∀ m ∈ msgs,
        (∀ tcs, m.role = "assistant" → m.tool_calls = some tcs →
          filterMessage m = { role := "assistant", content := m.content })
        ∧ (m.role = "tool" →
          filterMessage m
            = { role := "assistant",
                content := "[Tool Result from " ++ m.name.getD "tool"
                    ++ "]: " ++ m.content })
        ∧ (m.role ≠ "assistant" → m.role ≠ "tool" → filterMessage m = m)
        ∧ (m.role = "assistant" → m.tool_calls = none →
          filterMessage m = m)) := by
  constructor
  · intro m hm
    obtain ⟨m₀, hm₀, rfl⟩ := List.mem_map.mp hm
    by_cases h1 : m₀.role = "assistant" ∧ m₀.tool_calls.isSome
    · simp [filterMessage, h1, h1.1]
    · by_cases h2 : m₀.role = "tool"
      · simp [filterMessage, h1, h2]
      · have h3 : m₀.tool_calls = none := by
          cases htc : m₀.tool_calls with
          | none => rfl
          | some tcs =>
              have hrole := hwf m₀ hm₀ (by simp [htc])
              exact absurd ⟨hrole, by simp [htc]⟩ h1
        simp [filterMessage, h1, h2, h3]
  · intro m hm
    refine ⟨?_, ?_, ?_, ?_⟩
    · intro tcs hrole htc
      have h1 : m.role = "assistant" ∧ m.tool_calls.isSome :=
        ⟨hrole, by simp [htc]⟩
      simp [filterMessage, h1, hrole]
    · intro hrole
      have h1 : ¬(m.role = "assistant" ∧ m.tool_calls.isSome) := by
        intro hc
        rw [hrole] at hc
        simp at hc
      simp [filterMessage, h1, hrole]
    · intro hrole₁ hrole₂
      have h1 : ¬(m.role = "assistant" ∧ m.tool_calls.isSome) := by
        intro hc
        exact hrole₁ hc.1
      simp [filterMessage, h1, hrole₂]
    · intro hrole htc
      have h1 : ¬(m.role = "assistant" ∧ m.tool_calls.isSome) := by
        intro hc
        rw [htc] at hc
        simp at hc
      have h2 : m.role ≠ "tool" := by
        rw [hrole]
        simp
      simp [filterMessage, h1, h2]

/-- Witness converted message list: a user message, an assistant message
carrying a tool call, and the tool's result message. -/
def w9Msgs : List OAIMsg :=
  [{ role := "user", content := "hi" },
   { role := "assistant", content := "",
     tool_calls := some [{ id := "id1", name := "tavily_search",
                           arguments := "langgraph" }] },
   { role := "tool", content := "result text", name := some "tavily_search",
     tool_call_id := some "id1" }]

theorem filtered_messages_shape_witness :
    (∀ m ∈ filterMessages w9Msgs, m.role ≠ "tool" ∧ m.tool_calls = none)
    ∧ (∀ m ∈ w9Msgs,
        (∀ tcs, m.role = "assistant" → m.tool_calls = some tcs →
          filterMessage m = { role := "assistant", content := m.content })
        ∧ (m.role = "tool" →
          filterMessage m
            = { role := "assistant",
                content := "[Tool Result from " ++ m.name.getD "tool"
                    ++ "]: " ++ m.content })
        ∧ (m.role ≠ "assistant" → m.role ≠ "tool" → filterMessage m = m)
        ∧ (m.role = "assistant" → m.tool_calls = none →
          filterMessage m = m)) :=
  filtered_messages_shape w9Msgs (by decide)
